import Mathlib

/-!
Shallow embedding of the Asterinas kernel boot command-line subsystem:
`kernel/comps/cmdline/src/lib.rs` (tokenizer `split_arg`, the
`From<&'static str> for KCmdlineArg` parse loop, and the `init` dispatch)
and `ostd/src/boot/cmdline.rs` (the `KernelParam` descriptor/registry and
the `FromKernelParam` decoders with their `Once`/`Vec` storage slots).

Rust strings are modelled as `List Char` (a Rust `&str` is a sequence of
Unicode scalar values; its UTF-8 byte encoding contains a zero byte iff it
contains the character U+0000, which is what `CString::new` checks).
Panics (`.unwrap()` on `CString::new`) are modelled by `Option`: `none`
means the parse panicked. The link-time registry (`.kernel_param` section)
is modelled as an explicit `List KernelParam` parameter.
-/

namespace Cmdline

/-- Rust strings (`&str`) as lists of Unicode scalar values. -/
abbrev Str := List Char

/-- Rust `char::is_whitespace`: the Unicode `White_Space` property
(U+0009..U+000D, U+0020, U+0085, U+00A0, U+1680, U+2000..U+200A,
U+2028, U+2029, U+202F, U+205F, U+3000). -/
def isRustWhitespace (c : Char) : Bool :=
  (0x09 ≤ c.toNat && c.toNat ≤ 0x0D) || c.toNat == 0x20 || c.toNat == 0x85 ||
  c.toNat == 0xA0 || c.toNat == 0x1680 ||
  (0x2000 ≤ c.toNat && c.toNat ≤ 0x200A) ||
  c.toNat == 0x2028 || c.toNat == 0x2029 || c.toNat == 0x202F ||
  c.toNat == 0x205F || c.toNat == 0x3000

/-- The worker of `split_arg`: Rust's `str::split` applied to the stateful
closure of `split_arg` in `lib.rs`. The closure state `inside_quotes`
toggles on each `"` character (before the separator test), and a character
is a separator iff it is whitespace while not inside quotes. `cur` is the
piece accumulated since the last separator; separators are dropped,
every other character (quotes included) is kept. -/
def splitArgGo (inside_quotes : Bool) (cur : Str) : Str → List Str
  | [] => [cur]
  | c :: rest =>
    let inside := if c == '"' then !inside_quotes else inside_quotes
    if !inside && isRustWhitespace c then
      cur :: splitArgGo inside [] rest
    else
      splitArgGo inside (cur ++ [c]) rest

/-- `split_arg` from `lib.rs`: splits the command line string by whitespace
but preserves whitespace protected by double quotes. -/
def split_arg (input : Str) : List Str :=
  splitArgGo false [] input

/-- Rust `str::split(c)` for a single-character pattern: pieces between
occurrences of `c`, empty pieces included. -/
def splitOnChar (sep : Char) : Str → List Str
  | [] => [[]]
  | c :: rest =>
    if c == sep then
      [] :: splitOnChar sep rest
    else
      match splitOnChar sep rest with
      | [] => [[c]]
      | t :: ts => (c :: t) :: ts

/-- Rust `str::trim`: strip leading and trailing Unicode whitespace. -/
def rustTrim (s : Str) : Str :=
  ((s.dropWhile isRustWhitespace).reverse.dropWhile isRustWhitespace).reverse

/-- Rust `CString::new(s)`: fails (`NulError`) iff the bytes contain an
interior zero byte, i.e. iff the string contains U+0000. -/
def cstringNew (s : Str) : Option Str :=
  if Char.ofNat 0 ∈ s then none else some s

/-- The `KernelParam` descriptor from `ostd/src/boot/cmdline.rs`:
a name (with an optional trailing `=` value marker), an `early` flag and
an `implemented` flag. The setup callback is attached externally (see
`runSetups`) because the claims quantify over its behaviour. -/
structure KernelParam where
  name : String
  early : Bool
  implemented : Bool
  deriving Repr, DecidableEq

/-- `KernelParam::name()`: the descriptor name with a trailing `=`
stripped. -/
def KernelParam.nameNorm (kp : KernelParam) : Str :=
  if kp.name.data.getLast? = some '=' then kp.name.data.dropLast else kp.name.data

/-- `KernelParam::has_value()`: whether the raw name ends with `=`. -/
def KernelParam.has_value (kp : KernelParam) : Bool :=
  kp.name.data.getLast? == some '='

/-- `query_kernel_param` from `ostd/src/boot/cmdline.rs`: linear scan of
the registry, first descriptor whose normalized name equals `name`. -/
def query_kernel_param (registry : List KernelParam) (name : Str) : Option KernelParam :=
  registry.find? (fun kp => decide (kp.nameNorm = name))

/-- Console diagnostics emitted during parsing: the `log::warn!` for
malformed tokens in `lib.rs` and the `early_println!` for unimplemented
parameters in `query_kernel_param`. -/
inductive Warning where
  | malformedToken (arg : Str)
  | unimplementedParam (name : Str)
  deriving Repr, DecidableEq

/-- The parse result `KCmdlineArg` from `lib.rs`: init-process argv and
envp (the `InitprocArgs` struct inlined) plus the recorded
`(descriptor, value)` pairs. -/
structure KCmdlineArg where
  argv : List Str
  envp : List Str
  params : List (KernelParam × Option Str)
  deriving Repr, DecidableEq

/-- The state of the parse loop in `From<&'static str> for KCmdlineArg`:
the partially built result, the `kcmdline_end` flag and the diagnostics
emitted so far. -/
structure ParseState where
  kcmdline_end : Bool
  result : KCmdlineArg
  warnings : List Warning
  deriving Repr, DecidableEq

/-- The initial state of the parse loop. -/
def initParseState : ParseState :=
  { kcmdline_end := false
    result := { argv := [], envp := [], params := [] }
    warnings := [] }

/-- The body of the parse loop after a token has been `=`-split into
`(entry, value)`: registry lookup, then routing to params, the
module-argument drop, envp or argv (`lib.rs` lines 176-196).
`none` models the `CString::new(..).unwrap()` panic. -/
def processEntry (registry : List KernelParam) (st : ParseState)
    (entry : Str) (value : Option Str) : Option ParseState :=
  match query_kernel_param registry entry with
  | some param =>
    let ws := if param.implemented then [] else [Warning.unimplementedParam entry]
    some { st with
             result := { st.result with params := st.result.params ++ [(param, value)] }
             warnings := st.warnings ++ ws }
  | none =>
    if '.' ∈ entry then
      some st
    else
      match value with
      | some v =>
        match cstringNew (entry ++ ['='] ++ v) with
        | none => none
        | some s =>
          some { st with result := { st.result with envp := st.result.envp ++ [s] } }
      | none =>
        match cstringNew entry with
        | none => none
        | some s =>
          some { st with result := { st.result with argv := st.result.argv ++ [s] } }

/-- One iteration of the parse loop in
`From<&'static str> for KCmdlineArg` (`lib.rs` lines 149-197): the
post-sentinel raw append, the `--` sentinel, the `=`-split with arity
check, then `processEntry`. -/
def processToken (registry : List KernelParam) (st : ParseState) (arg : Str) :
    Option ParseState :=
  if st.kcmdline_end then
    match cstringNew arg with
    | none => none
    | some s =>
      some { st with result := { st.result with argv := st.result.argv ++ [s] } }
  else if arg = ['-', '-'] then
    some { st with kcmdline_end := true }
  else
    match splitOnChar '=' arg with
    | [e] => processEntry registry st e none
    | [e, v] => processEntry registry st e (some v)
    | _ =>
      some { st with warnings := st.warnings ++ [Warning.malformedToken arg] }

/-- The parse loop over a token list. -/
def processTokens (registry : List KernelParam) (st : ParseState) :
    List Str → Option ParseState
  | [] => some st
  | t :: ts =>
    match processToken registry st t with
    | none => none
    | some st' => processTokens registry st' ts

/-- `KCmdlineArg::from(cmdline)`: tokenize with `split_arg` and run the
parse loop; `none` models a panic. -/
def kcmdlineFrom (registry : List KernelParam) (cmdline : Str) : Option ParseState :=
  processTokens registry initParseState (split_arg cmdline)

/-- Rust `Iterator::partition(p)`: a fold that pushes each element onto
the left vector when the predicate holds and onto the right vector
otherwise, preserving iteration order (used by `init` in `lib.rs`). -/
def rustPartition (p : α → Bool) (xs : List α) : List α × List α :=
  xs.foldl (fun acc x => if p x then (acc.1 ++ [x], acc.2) else (acc.1, acc.2 ++ [x]))
    ([], [])

/-- The setup invocation order of `init` in `lib.rs`: partition the
recorded pairs by the `early` flag, then the early group followed by the
late group. -/
def setupOrder (params : List (KernelParam × Option Str)) :
    List (KernelParam × Option Str) :=
  let el := rustPartition (fun pv => pv.1.early) params
  el.1 ++ el.2

/-- Sequentially invoke setup callbacks over an abstract state `σ`:
`call kp v` is the state effect of `kp.call_setup(v)`. -/
def runSetups (call : KernelParam → Option Str → σ → σ) (s0 : σ)
    (order : List (KernelParam × Option Str)) : σ :=
  order.foldl (fun s pv => call pv.1 pv.2 s) s0

/-- The dispatch phase of `init` in `lib.rs`: run every early-group setup
to completion, then every late-group setup. -/
def initDispatch (call : KernelParam → Option Str → σ → σ) (s0 : σ)
    (params : List (KernelParam × Option Str)) : σ :=
  let el := rustPartition (fun pv => pv.1.early) params
  runSetups call (runSetups call s0 el.1) el.2

/-- `u64::from_str` digits: the numeric value of an ASCII digit string,
`none` on an empty string or a non-digit character. -/
def parseDigits (acc : Nat) : Str → Option Nat
  | [] => some acc
  | c :: rest =>
    if '0' ≤ c && c ≤ '9' then
      parseDigits (acc * 10 + (c.toNat - '0'.toNat)) rest
    else
      none

/-- Rust `u64::from_str`: an optional `+` sign followed by at least one
ASCII digit; the result must fit in 64 bits (the per-step
`checked_mul`/`checked_add` overflow test is equivalent to a final bound
check because the accumulated value grows monotonically). -/
def parseU64 (s : Str) : Option Nat :=
  let digits := match s with
    | '+' :: rest => rest
    | _ => s
  if digits = [] then none
  else match parseDigits 0 digits with
    | none => none
    | some n => if n < 2 ^ 64 then some n else none

/-- The blanket `impl<T: FromStr> FromKernelParam for T` in
`ostd/src/boot/cmdline.rs`: `None` is rejected (`let s = value?`),
otherwise the value is trimmed and parsed with the type's `FromStr`. -/
def from_value_fromStr (parse : Str → Option T) (value : Option Str) : Option T :=
  match value with
  | none => none
  | some s => parse (rustTrim s)

/-- `FromKernelParam for u64` via the blanket `FromStr` impl. -/
def from_value_u64 (value : Option Str) : Option Nat :=
  from_value_fromStr parseU64 value

/-- `FromKernelParam for String` via the blanket `FromStr` impl
(`String::from_str` is infallible, so only the trim is observable). -/
def from_value_string (value : Option Str) : Option Str :=
  from_value_fromStr (fun s => some s) value

/-- `impl FromKernelParam for KernelFlag`: accepts only the absent
value. `Unit` stands for the `KernelFlag` marker type. -/
def from_value_flag (value : Option Str) : Option Unit :=
  match value with
  | none => some ()
  | some _ => none

/-- The `__setup` callback generated by `define_kernel_param!`: decode
the value and `call_once` the `spin::Once<T>` slot, which stores the
value only when the slot is still empty and otherwise leaves it
untouched. -/
def setupOnce (from_value : Option Str → Option T) (value : Option Str)
    (slot : Option T) : Option T :=
  match from_value value with
  | some v =>
    match slot with
    | none => some v
    | some old => some old
  | none => slot

/-- The `__setup_vec` callback generated by `define_kernel_param_vec!`:
decode the value and push it onto the `Mutex<Vec<T>>` slot; invalid
values are ignored. -/
def setupVec (from_value : Option Str → Option T) (value : Option Str)
    (slot : List T) : List T :=
  match from_value value with
  | some v => slot ++ [v]
  | none => slot

/-- Spec-side reading of the tokenizer (spec section 4.3): split on
whitespace except whitespace inside a double-quoted span, where the
quoting state is the parity of the number of `"` characters encountered
so far (the state "toggles on each `\x22` character and persists across
the whole scan"); quote characters are retained in the emitted tokens.
`quotesSeen` counts the quote characters consumed so far. -/
def splitArgSpecGo (quotesSeen : Nat) (cur : Str) : Str → List Str
  | [] => [cur]
  | c :: rest =>
    let q := if c = '"' then quotesSeen + 1 else quotesSeen
    if isRustWhitespace c && q % 2 == 0 then
      cur :: splitArgSpecGo q [] rest
    else
      splitArgSpecGo q (cur ++ [c]) rest

/-- Spec-side tokenizer: no quotes seen initially. -/
def splitArgSpec (input : Str) : List Str :=
  splitArgSpecGo 0 [] input

/-- The number of separator characters `split_arg` encounters, carrying
the same quoting state as `splitArgGo`. -/
def sepCount (inside_quotes : Bool) : Str → Nat
  | [] => 0
  | c :: rest =>
    let inside := if c == '"' then !inside_quotes else inside_quotes
    (if !inside && isRustWhitespace c then 1 else 0) + sepCount inside rest

/-- A single-valued numeric parameter descriptor registered as `foo=`
(used by the spec's `foo=1 foo=2` scenario). -/
def fooP : KernelParam := { name := "foo=", early := false, implemented := true }

/-- A flag parameter descriptor registered as `debug` (used by the
spec's `debug -- initprog --flag` scenario). -/
def debugP : KernelParam := { name := "debug", early := false, implemented := true }

/-- A multi-valued parameter descriptor registered as `console=` (used
by the spec's `console=ttyS0 console=tty0` scenario). -/
def consoleP : KernelParam := { name := "console=", early := false, implemented := true }

/-- The dispatch-time effect of a `define_kernel_param!` registration for
`target` with a `spin::Once<u64>` slot: only `target`'s own setup touches
the slot. -/
def onceCallU64 (target : KernelParam) (kp : KernelParam) (value : Option Str)
    (slot : Option Nat) : Option Nat :=
  if kp = target then setupOnce from_value_u64 value slot else slot

/-- The dispatch-time effect of a `define_kernel_param!` registration for
`target` with a `spin::Once<KernelFlag>` slot. -/
def onceCallFlag (target : KernelParam) (kp : KernelParam) (value : Option Str)
    (slot : Option Unit) : Option Unit :=
  if kp = target then setupOnce from_value_flag value slot else slot

/-- The dispatch-time effect of a `define_kernel_param_vec!` registration
for `target` with a `Mutex<Vec<String>>` slot. -/
def vecCallString (target : KernelParam) (kp : KernelParam) (value : Option Str)
    (slot : List Str) : List Str :=
  if kp = target then setupVec from_value_string value slot else slot

theorem parity_succ (q : Nat) : ((q + 1) % 2 == 1) = !(q % 2 == 1) := by
  rcases Nat.mod_two_eq_zero_or_one q with h | h <;> simp [Nat.add_mod, h]

theorem parity_not (q : Nat) : (!(q % 2 == 1)) = (q % 2 == 0) := by
  rcases Nat.mod_two_eq_zero_or_one q with h | h <;> simp [h]

/-- The boolean quoting state of `splitArgGo` is the parity of the
number of quote characters consumed, so the source tokenizer agrees with
the spec-side tokenizer step by step. -/
theorem splitArgGo_eq_spec (cs : Str) : ∀ (q : Nat) (inside : Bool) (cur : Str),
    inside = (q % 2 == 1) → splitArgGo inside cur cs = splitArgSpecGo q cur cs := by
  induction cs with
  | nil => intro q inside cur h; rfl
  | cons c rest ih =>
    intro q inside cur h
    by_cases hq : c = '"'
    · subst hq
      have hws : isRustWhitespace '"' = false := by decide
      have hins : (!inside) = ((q + 1) % 2 == 1) := by rw [h, ← parity_succ]
      simp only [splitArgGo, splitArgSpecGo, beq_self_eq_true, if_pos rfl, hws,
        Bool.and_false, Bool.false_and, Bool.false_eq_true, if_false]
      exact ih (q + 1) (!inside) (cur ++ ['"']) hins
    · have hbq : (c == '"') = false := by simp [hq]
      have hcond : (!inside && isRustWhitespace c) = (isRustWhitespace c && (q % 2 == 0)) := by
        rw [h, parity_not, Bool.and_comm]
      simp only [splitArgGo, splitArgSpecGo, hbq, if_neg hq, Bool.false_eq_true, if_false,
        hcond]
      by_cases hc : (isRustWhitespace c && (q % 2 == 0)) = true
      · rw [if_pos hc, if_pos hc, ih q inside [] h]
      · rw [if_neg hc, if_neg hc]
        exact ih q inside (cur ++ [c]) h

/-- C2: `split_arg` splits its input on whitespace characters except
whitespace occurring inside a double-quoted span (quoting state = parity
of the quote characters encountered so far, persisting across the whole
scan, quote characters retained in the emitted tokens), and in
particular `split_arg "a \x22b c\x22 d"` yields exactly the tokens
`["a", "\x22b c\x22", "d"]`. -/
theorem C2_split_arg_quote_aware :
    (∀ input : Str, split_arg input = splitArgSpec input) ∧
    split_arg ("a \"b c\" d".data) = ["a".data, "\"b c\"".data, "d".data] := by
  constructor
  · intro input
    exact splitArgGo_eq_spec input 0 false [] rfl
  · decide

theorem C2_witness :
    split_arg ("a \"b c\" d".data) = splitArgSpec ("a \"b c\" d".data) :=
  C2_split_arg_quote_aware.1 ("a \"b c\" d".data)

/-- `splitOnChar` never produces an empty list of pieces. -/
theorem splitOnChar_ne_nil (sep : Char) (s : Str) : splitOnChar sep s ≠ [] := by
  cases s with
  | nil => simp [splitOnChar]
  | cons c rest =>
    simp only [splitOnChar]
    split
    · simp
    · split <;> simp

/-- Every character of every piece of `splitOnChar` comes from the input. -/
theorem mem_splitOnChar_subset (sep : Char) (s : Str) :
    ∀ t ∈ splitOnChar sep s, ∀ ch ∈ t, ch ∈ s := by
  induction s with
  | nil =>
    intro t ht ch hch
    simp only [splitOnChar, List.mem_singleton] at ht
    subst ht
    simp at hch
  | cons c rest ih =>
    intro t ht ch hch
    simp only [splitOnChar] at ht
    by_cases h : c == sep
    · rw [if_pos h] at ht
      rcases List.mem_cons.mp ht with rfl | ht'
      · simp at hch
      · exact List.mem_cons_of_mem c (ih t ht' ch hch)
    · rw [if_neg h] at ht
      rcases hr : splitOnChar sep rest with _ | ⟨t0, ts⟩
      · exact absurd hr (splitOnChar_ne_nil sep rest)
      · rw [hr] at ht
        rcases List.mem_cons.mp ht with rfl | ht'
        · rcases List.mem_cons.mp hch with rfl | hch'
          · exact List.mem_cons_self ch rest
          · have := ih t0 (hr ▸ List.mem_cons_self t0 ts) ch hch'
            exact List.mem_cons_of_mem c this
        · have := ih t (hr ▸ List.mem_cons_of_mem t0 ht') ch hch
          exact List.mem_cons_of_mem c this

/-- A string without the separator is returned whole. -/
theorem splitOnChar_of_not_mem (sep : Char) (s : Str) (h : sep ∉ s) :
    splitOnChar sep s = [s] := by
  induction s with
  | nil => rfl
  | cons c rest ih =>
    have hc : ¬(c == sep) = true := by
      simp only [beq_iff_eq]
      intro hEq
      exact h (hEq ▸ List.mem_cons_self c rest)
    have hrest : sep ∉ rest := fun hm => h (List.mem_cons_of_mem c hm)
    simp only [splitOnChar, if_neg hc, ih hrest]

/-- Splitting after a separator-free prefix peels off that prefix. -/
theorem splitOnChar_append (sep : Char) (l r : Str) (hl : sep ∉ l) :
    splitOnChar sep (l ++ sep :: r) = l :: splitOnChar sep r := by
  induction l with
  | nil => simp [splitOnChar]
  | cons c l' ih =>
    have hc : ¬(c == sep) = true := by
      simp only [beq_iff_eq]
      intro hEq
      exact hl (hEq ▸ List.mem_cons_self c l')
    have hl' : sep ∉ l' := fun hm => hl (List.mem_cons_of_mem c hm)
    simp only [List.cons_append, splitOnChar, if_neg hc, List.append_eq, ih hl']

/-- The number of pieces is the separator count plus one. -/
theorem splitOnChar_length (sep : Char) (s : Str) :
    (splitOnChar sep s).length = s.count sep + 1 := by
  induction s with
  | nil => simp [splitOnChar]
  | cons c rest ih =>
    simp only [splitOnChar]
    by_cases h : c == sep
    · have hEq : c = sep := by simpa using h
      simp [if_pos h, ih, hEq, List.count_cons]
    · have hNe : ¬ c = sep := by simpa using h
      rcases hr : splitOnChar sep rest with _ | ⟨t0, ts⟩
      · exact absurd hr (splitOnChar_ne_nil sep rest)
      · rw [hr] at ih
        simp only [if_neg h, hr, List.length_cons] at ih ⊢
        simp [List.count_cons, hNe, ← ih]

theorem mem_splitArgGo_subset (cs : Str) : ∀ (inside : Bool) (cur t : Str),
    t ∈ splitArgGo inside cur cs → ∀ ch ∈ t, ch ∈ cur ∨ ch ∈ cs := by
  induction cs with
  | nil =>
    intro inside cur t ht ch hch
    simp only [splitArgGo, List.mem_singleton] at ht
    subst ht; exact Or.inl hch
  | cons c rest ih =>
    intro inside cur t ht ch hch
    have hsepCase : ∀ b : Bool, t ∈ cur :: splitArgGo b [] rest → ch ∈ cur ∨ ch ∈ c :: rest := by
      intro b hmem
      rcases List.mem_cons.mp hmem with rfl | ht'
      · exact Or.inl hch
      · rcases ih b [] t ht' ch hch with h1 | h1
        · simp at h1
        · exact Or.inr (List.mem_cons_of_mem c h1)
    have hkeepCase : ∀ b : Bool, t ∈ splitArgGo b (cur ++ [c]) rest → ch ∈ cur ∨ ch ∈ c :: rest := by
      intro b hmem
      rcases ih b (cur ++ [c]) t hmem ch hch with h1 | h1
      · rcases List.mem_append.mp h1 with h2 | h2
        · exact Or.inl h2
        · simp only [List.mem_singleton] at h2
          exact Or.inr (h2 ▸ List.mem_cons_self c rest)
      · exact Or.inr (List.mem_cons_of_mem c h1)
    simp only [splitArgGo] at ht
    split at ht <;> try split at ht
    all_goals
      first
        | exact hsepCase _ ht
        | exact hkeepCase _ ht

theorem processEntry_isSome (registry : List KernelParam) (st : ParseState)
    (entry : Str) (value : Option Str)
    (he : Char.ofNat 0 ∉ entry) (hv : ∀ v, value = some v → Char.ofNat 0 ∉ v) :
    (processEntry registry st entry value).isSome := by
  unfold processEntry
  cases hq : query_kernel_param registry entry with
  | some kp => simp
  | none =>
    by_cases hd : '.' ∈ entry
    · simp [hd]
    · cases value with
      | none => simp [hd, cstringNew, he]
      | some v =>
        have hnv : Char.ofNat 0 ∉ v := hv v rfl
        simp [hd, cstringNew, he, hnv]

theorem processToken_isSome (registry : List KernelParam) (st : ParseState)
    (arg : Str) (h : Char.ofNat 0 ∉ arg) :
    (processToken registry st arg).isSome := by
  unfold processToken
  by_cases hend : st.kcmdline_end = true
  · simp [hend, cstringNew, h]
  · by_cases hsent : arg = ['-', '-']
    · simp [hend, hsent]
    · rw [if_neg hend, if_neg hsent]
      rcases h3 : splitOnChar '=' arg with _ | ⟨e, _ | ⟨v, _ | ⟨w, ts⟩⟩⟩
      · exact absurd h3 (splitOnChar_ne_nil '=' arg)
      · have he : Char.ofNat 0 ∉ e := fun hm =>
          h (mem_splitOnChar_subset '=' arg e (by rw [h3]; exact List.mem_singleton_self e) _ hm)
        exact processEntry_isSome registry st e none he (fun v hv => by cases hv)
      · have hmem_e : e ∈ splitOnChar '=' arg := by
          rw [h3]; exact List.mem_cons_self e [v]
        have hmem_v : v ∈ splitOnChar '=' arg := by
          rw [h3]; exact List.mem_cons_of_mem e (List.mem_singleton_self v)
        have he : Char.ofNat 0 ∉ e := fun hm => h (mem_splitOnChar_subset '=' arg e hmem_e _ hm)
        have hve : Char.ofNat 0 ∉ v := fun hm => h (mem_splitOnChar_subset '=' arg v hmem_v _ hm)
        refine processEntry_isSome registry st e (some v) he (fun w hw => ?hw)
        cases hw
        exact hve
      · simp

theorem processTokens_isSome (registry : List KernelParam) (ts : List Str) :
    ∀ st : ParseState, (∀ t ∈ ts, Char.ofNat 0 ∉ t) →
    (processTokens registry st ts).isSome := by
  induction ts with
  | nil => intro st h; simp [processTokens]
  | cons t ts ih =>
    intro st h
    have h1 := processToken_isSome registry st t (h t (List.mem_cons_self t ts))
    rcases h2 : processToken registry st t with _ | st'
    · rw [h2] at h1; simp at h1
    · simp only [processTokens, h2]
      exact ih st' (fun u hu => h u (List.mem_cons_of_mem t hu))

theorem split_arg_no_nul (input : Str) (h : Char.ofNat 0 ∉ input) :
    ∀ t ∈ split_arg input, Char.ofNat 0 ∉ t := by
  intro t ht hm
  rcases mem_splitArgGo_subset input false [] t ht _ hm with h1 | h1
  · simp at h1
  · exact h h1

/-- C1 (amended): for every boot command-line input string that contains
no NUL character, the parse never fails: every failure mode degrades to
ignore-and-continue and a complete (possibly empty) `KCmdlineArg` is
produced. The NUL restriction is forced by `C1_counterexample`: the
source calls `CString::new(..).unwrap()`, which panics on a token
containing an interior NUL byte. -/
theorem C1_parse_total_no_nul (registry : List KernelParam) (cmdline : Str)
    (h : Char.ofNat 0 ∉ cmdline) : (kcmdlineFrom registry cmdline).isSome :=
  processTokens_isSome registry (split_arg cmdline) initParseState
    (split_arg_no_nul cmdline h)

theorem C1_witness : Char.ofNat 0 ∉ ("a b".data) ∧ (kcmdlineFrom [] ("a b".data)).isSome :=
  ⟨by decide, C1_parse_total_no_nul [] ("a b".data) (by decide)⟩

/-- C1 counterexample: on the one-character input consisting of a NUL
character the parse panics (`CString::new(..).unwrap()` fails), so the
claim as stated over every input string is false. -/
theorem C1_counterexample : kcmdlineFrom [] [Char.ofNat 0] = none := by decide

theorem processTokens_append (registry : List KernelParam) (xs ys : List Str) :
    ∀ st : ParseState, processTokens registry st (xs ++ ys) =
      match processTokens registry st xs with
      | none => none
      | some st' => processTokens registry st' ys := by
  induction xs with
  | nil => intro st; rfl
  | cons x xs ih =>
    intro st
    simp only [List.cons_append, processTokens]
    cases processToken registry st x with
    | none => rfl
    | some st' => exact ih st'

theorem processEntry_end_eq (registry : List KernelParam) (st : ParseState)
    (entry : Str) (value : Option Str) (st' : ParseState)
    (h : processEntry registry st entry value = some st') :
    st'.kcmdline_end = st.kcmdline_end := by
  unfold processEntry at h
  split at h
  all_goals try split at h
  all_goals try split at h
  all_goals try split at h
  all_goals first
    | (simp only [Option.some.injEq] at h; subst h; rfl)
    | simp at h

theorem processToken_end_eq (registry : List KernelParam) (st : ParseState)
    (arg : Str) (st' : ParseState) (hend : st.kcmdline_end = false)
    (hsent : arg ≠ ['-', '-'])
    (h : processToken registry st arg = some st') :
    st'.kcmdline_end = false := by
  unfold processToken at h
  rw [hend] at h
  simp only [Bool.false_eq_true, if_false, if_neg hsent] at h
  split at h
  · exact (processEntry_end_eq _ _ _ _ _ h).trans hend
  · exact (processEntry_end_eq _ _ _ _ _ h).trans hend
  · simp only [Option.some.injEq] at h
    subst h
    rfl

theorem processTokens_end_eq (registry : List KernelParam) (pre : List Str) :
    ∀ st st' : ParseState, st.kcmdline_end = false → (['-', '-'] : Str) ∉ pre →
    processTokens registry st pre = some st' → st'.kcmdline_end = false := by
  induction pre with
  | nil =>
    intro st st' h _ hp
    simp only [processTokens, Option.some.injEq] at hp
    subst hp
    exact h
  | cons t ts ih =>
    intro st st' h hmem hp
    have hne : t ≠ ['-', '-'] := by
      intro hEq
      exact hmem (hEq ▸ List.mem_cons_self t ts)
    simp only [processTokens] at hp
    cases h2 : processToken registry st t with
    | none => rw [h2] at hp; simp at hp
    | some st1 =>
      rw [h2] at hp
      have h1 : st1.kcmdline_end = false := processToken_end_eq registry st t st1 h hne h2
      exact ih st1 st' h1 (fun hm => hmem (List.mem_cons_of_mem t hm)) hp

theorem processTokens_post_sentinel (registry : List KernelParam) (ts : List Str) :
    ∀ st : ParseState, st.kcmdline_end = true → (∀ t ∈ ts, Char.ofNat 0 ∉ t) →
    processTokens registry st ts =
      some { st with result := { st.result with argv := st.result.argv ++ ts } } := by
  induction ts with
  | nil =>
    intro st h hn
    simp [processTokens]
  | cons t ts ih =>
    intro st h hn
    have hnt : Char.ofNat 0 ∉ t := hn t (List.mem_cons_self t ts)
    simp only [processTokens, processToken, h, if_true, cstringNew, if_neg hnt]
    rw [ih _ rfl (fun u hu => hn u (List.mem_cons_of_mem t hu))]
    simp

/-- C3: the first token equal to `--` is consumed as a sentinel and not
emitted; every later token is appended raw to the init-process argv with
no `=`-splitting and no registry matching; parsing
`debug -- initprog --flag` with `debug` registered as a flag sets the
flag and yields process argv `[initprog, --flag]`. -/
theorem C3_sentinel_switch :
    (∀ (registry : List KernelParam) (pre post : List Str) (st' : ParseState),
      (['-', '-'] : Str) ∉ pre →
      (∀ t ∈ post, Char.ofNat 0 ∉ t) →
      processTokens registry initParseState pre = some st' →
      processTokens registry initParseState (pre ++ ['-', '-'] :: post) =
        some { kcmdline_end := true,
               result := { st'.result with argv := st'.result.argv ++ post },
               warnings := st'.warnings }) ∧
    (kcmdlineFrom [debugP] ("debug -- initprog --flag".data)).map
        (fun st => (st.result.argv, st.result.envp,
          initDispatch (onceCallFlag debugP) none st.result.params)) =
      some (["initprog".data, "--flag".data], [], some ()) := by
  constructor
  · intro registry pre post st' hpre hpost hrun
    rw [processTokens_append, hrun]
    have hend : st'.kcmdline_end = false :=
      processTokens_end_eq registry pre initParseState st' rfl hpre hrun
    have hstep : processToken registry st' ['-', '-'] =
        some { st' with kcmdline_end := true } := by
      unfold processToken
      rw [hend]
      simp
    simp only [processTokens, hstep]
    rw [processTokens_post_sentinel registry post _ rfl hpost]
  · decide

theorem C3_witness :
    processTokens [] initParseState (["a".data] ++ ['-', '-'] :: ["b".data]) =
      some { kcmdline_end := true,
             result := { argv := ["a".data, "b".data], envp := [], params := [] },
             warnings := [] } := by
  have h := C3_sentinel_switch.1 [] ["a".data] ["b".data]
    { kcmdline_end := false, result := { argv := ["a".data], envp := [], params := [] },
      warnings := [] } (by decide) (by decide) (by decide)
  exact h.trans (by decide)

/-- C4: before the sentinel, a token with zero `=` characters becomes
`(entry, None)`, one with exactly one `=` becomes `(entry, Some rhs)`,
and one with more than one `=` is skipped entirely with a diagnostic
warning and no registry match or process-argument entry. -/
theorem C4_equals_split_arity (registry : List KernelParam) (st : ParseState) (arg : Str)
    (hend : st.kcmdline_end = false) (hsent : arg ≠ ['-', '-']) :
    (arg.count '=' = 0 → processToken registry st arg = processEntry registry st arg none) ∧
    (∀ l r : Str, arg = l ++ '=' :: r → '=' ∉ l → '=' ∉ r →
      processToken registry st arg = processEntry registry st l (some r)) ∧
    (2 ≤ arg.count '=' →
      processToken registry st arg =
        some { st with warnings := st.warnings ++ [Warning.malformedToken arg] }) := by
  refine ⟨?h0, ?h1, ?h2⟩
  · intro h0
    have hns : '=' ∉ arg := List.count_eq_zero.mp h0
    unfold processToken
    rw [if_neg (by simp [hend]), if_neg hsent, splitOnChar_of_not_mem '=' arg hns]
  · intro l r hEq hl hr
    unfold processToken
    rw [if_neg (by simp [hend]), if_neg hsent, hEq, splitOnChar_append '=' l r hl,
      splitOnChar_of_not_mem '=' r hr]
  · intro h2
    have hlen : 3 ≤ (splitOnChar '=' arg).length := by
      rw [splitOnChar_length]; omega
    unfold processToken
    rw [if_neg (by simp [hend]), if_neg hsent]
    rcases h3 : splitOnChar '=' arg with _ | ⟨e, _ | ⟨v, _ | ⟨w, ts⟩⟩⟩
    · exact absurd h3 (splitOnChar_ne_nil '=' arg)
    · rw [h3] at hlen; simp at hlen
    · rw [h3] at hlen; simp at hlen
    · rfl

theorem C4_witness :
    processToken [] initParseState ("a=b=c".data) =
      some { kcmdline_end := false, result := { argv := [], envp := [], params := [] },
             warnings := [Warning.malformedToken ("a=b=c".data)] } ∧
    processToken [] initParseState ("a=b".data) =
      processEntry [] initParseState ("a".data) (some ("b".data)) ∧
    processToken [] initParseState ("a".data) =
      processEntry [] initParseState ("a".data) none := by
  have h := C4_equals_split_arity [] initParseState ("a=b=c".data) rfl (by decide)
  have h1 := C4_equals_split_arity [] initParseState ("a=b".data) rfl (by decide)
  have h2 := C4_equals_split_arity [] initParseState ("a".data) rfl (by decide)
  refine ⟨(h.2.2 (by decide)).trans (by decide), ?w1, h2.1 (by decide)⟩
  exact h1.2.1 ("a".data) ("b".data) (by decide) (by decide) (by decide)

/-- C5: each well-formed pre-sentinel token is routed to exactly one
destination: a registry match is recorded (never forwarded, regardless
of implemented status); an unmatched dotted entry is silently dropped;
an unmatched entry with a value goes verbatim as `entry=value` to envp;
an unmatched entry without a value goes to argv. -/
theorem C5_routing (registry : List KernelParam) (st : ParseState)
    (entry : Str) (value : Option Str) :
    (∀ kp : KernelParam, query_kernel_param registry entry = some kp →
      processEntry registry st entry value =
        some { st with
                 result := { st.result with params := st.result.params ++ [(kp, value)] }
                 warnings := st.warnings ++
                   (if kp.implemented then [] else [Warning.unimplementedParam entry]) }) ∧
    (query_kernel_param registry entry = none → '.' ∈ entry →
      processEntry registry st entry value = some st) ∧
    (∀ v : Str, query_kernel_param registry entry = none → '.' ∉ entry → value = some v →
      Char.ofNat 0 ∉ entry ++ ['='] ++ v →
      processEntry registry st entry value =
        some { st with result :=
                 { st.result with envp := st.result.envp ++ [entry ++ ['='] ++ v] } }) ∧
    (query_kernel_param registry entry = none → '.' ∉ entry → value = none →
      Char.ofNat 0 ∉ entry →
      processEntry registry st entry value =
        some { st with result := { st.result with argv := st.result.argv ++ [entry] } }) := by
  refine ⟨?m1, ?m2, ?m3, ?m4⟩
  · intro kp hq
    unfold processEntry
    rw [hq]
  · intro hq hd
    unfold processEntry
    rw [hq]
    simp [hd]
  · intro v hq hd hv hn
    subst hv
    have hn1 : Char.ofNat 0 ∉ entry := fun hm =>
      hn (List.mem_append_left _ (List.mem_append_left _ hm))
    have hn2 : Char.ofNat 0 ∉ v := fun hm => hn (List.mem_append_right _ hm)
    unfold processEntry
    rw [hq]
    simp [hd, cstringNew, hn1, hn2]
  · intro hq hd hv hn
    subst hv
    unfold processEntry
    rw [hq]
    simp [hd, cstringNew, hn]

theorem C5_witness :
    processEntry [fooP] initParseState ("foo".data) (some ("1".data)) =
      some { kcmdline_end := false,
             result := { argv := [], envp := [], params := [(fooP, some ("1".data))] },
             warnings := [] } ∧
    processEntry [] initParseState ("unknown.module.param".data) (some ("5".data)) =
      some initParseState ∧
    processEntry [] initParseState ("FOO".data) (some ("bar".data)) =
      some { kcmdline_end := false,
             result := { argv := [], envp := ["FOO=bar".data], params := [] },
             warnings := [] } ∧
    processEntry [] initParseState ("standalone_flag".data) none =
      some { kcmdline_end := false,
             result := { argv := ["standalone_flag".data], envp := [], params := [] },
             warnings := [] } := by
  refine ⟨?w1, ?w2, ?w3, ?w4⟩
  · exact ((C5_routing [fooP] initParseState ("foo".data) (some ("1".data))).1 fooP
      (by decide)).trans (by decide)
  · exact (C5_routing [] initParseState ("unknown.module.param".data)
      (some ("5".data))).2.1 (by decide) (by decide)
  · exact ((C5_routing [] initParseState ("FOO".data) (some ("bar".data))).2.2.1
      ("bar".data) (by decide) (by decide) rfl (by decide)).trans (by decide)
  · exact ((C5_routing [] initParseState ("standalone_flag".data) none).2.2.2
      (by decide) (by decide) rfl (by decide)).trans (by decide)

theorem rustPartition_eq_filter (p : α → Bool) (xs : List α) :
    rustPartition p xs = (xs.filter p, xs.filter (fun x => !p x)) := by
  have go : ∀ (ys : List α) (l r : List α),
      ys.foldl (fun acc x => if p x then (acc.1 ++ [x], acc.2) else (acc.1, acc.2 ++ [x]))
          (l, r) =
        (l ++ ys.filter p, r ++ ys.filter (fun x => !p x)) := by
    intro ys
    induction ys with
    | nil => intro l r; simp
    | cons y ys ih =>
      intro l r
      by_cases h : p y = true
      · simp [List.foldl_cons, h, ih, List.filter_cons]
      · simp [List.foldl_cons, h, ih, List.filter_cons]
  simpa [rustPartition] using go xs [] []

theorem append_index_lt (E L : List α) (p : α → Bool)
    (hE : ∀ x ∈ E, p x = true) (hL : ∀ x ∈ L, p x = false)
    (i j : Nat) (hi : i < (E ++ L).length) (hj : j < (E ++ L).length)
    (hpi : p ((E ++ L).get ⟨i, hi⟩) = true) (hpj : p ((E ++ L).get ⟨j, hj⟩) = false) :
    i < j := by
  have hiE : i < E.length := by
    by_contra hge
    push_neg at hge
    have hmem : (E ++ L).get ⟨i, hi⟩ ∈ L := by
      rw [List.get_eq_getElem, List.getElem_append_right hge]
      exact List.getElem_mem _
    have hfalse := hL _ hmem
    rw [hpi] at hfalse
    cases hfalse
  have hjE : ¬ j < E.length := by
    intro hlt
    have hmem : (E ++ L).get ⟨j, hj⟩ ∈ E := by
      rw [List.get_eq_getElem, List.getElem_append_left hlt]
      exact List.getElem_mem _
    have htrue := hE _ hmem
    rw [hpj] at htrue
    cases htrue
  omega

/-- C6: after the token stream is consumed, the recorded pairs are
partitioned by the `early` flag into early and late groups preserving
relative order within each group, every early index precedes every late
index in the invocation order, and the dispatch runs the early group and
then the late group over any state. -/
theorem C6_early_then_late (params : List (KernelParam × Option Str)) :
    (setupOrder params =
       params.filter (fun pv => pv.1.early) ++ params.filter (fun pv => !pv.1.early)) ∧
    (params.filter (fun pv => pv.1.early)).Sublist params ∧
    (params.filter (fun pv => !pv.1.early)).Sublist params ∧
    (∀ i j : Fin (setupOrder params).length,
      ((setupOrder params).get i).1.early = true →
      ((setupOrder params).get j).1.early = false → (i : Nat) < j) ∧
    (∀ (σ : Type) (call : KernelParam → Option Str → σ → σ) (s0 : σ),
      initDispatch call s0 params = runSetups call s0 (setupOrder params)) := by
  have hpart := rustPartition_eq_filter (fun pv => pv.1.early) params
  have hord : setupOrder params =
      params.filter (fun pv => pv.1.early) ++ params.filter (fun pv => !pv.1.early) := by
    simp [setupOrder, hpart]
  refine ⟨hord, List.filter_sublist _, List.filter_sublist _, ?idx, ?disp⟩
  case idx =>
    intro i j hpi hpj
    have hi' : (i : Nat) <
        ((params.filter (fun pv => pv.1.early)) ++ params.filter (fun pv => !pv.1.early)).length := by
      rw [← hord]; exact i.2
    have hj' : (j : Nat) <
        ((params.filter (fun pv => pv.1.early)) ++ params.filter (fun pv => !pv.1.early)).length := by
      rw [← hord]; exact j.2
    have hgi := List.get_of_eq hord i
    have hgj := List.get_of_eq hord j
    refine append_index_lt (params.filter (fun pv => pv.1.early))
      (params.filter (fun pv => !pv.1.early)) (fun pv => pv.1.early)
      (fun x hx => (List.mem_filter.mp hx).2)
      (fun x hx => by
        have := (List.mem_filter.mp hx).2
        simpa using this)
      i j hi' hj' ?hx1 ?hx2
    · rw [show ((params.filter fun pv => pv.1.early) ++
          params.filter fun pv => !pv.1.early).get ⟨i, hi'⟩ =
          (setupOrder params).get i from (hgi.trans (by congr)).symm]
      exact hpi
    · rw [show ((params.filter fun pv => pv.1.early) ++
          params.filter fun pv => !pv.1.early).get ⟨j, hj'⟩ =
          (setupOrder params).get j from (hgj.trans (by congr)).symm]
      exact hpj
  case disp =>
    intro σ call s0
    simp [initDispatch, runSetups, hpart, hord, List.foldl_append]

/-- An early-flagged recorded pair, for exercising the dispatch order. -/
def earlyPair : KernelParam × Option Str :=
  ({ name := "e", early := true, implemented := true }, none)

/-- A late-flagged recorded pair, for exercising the dispatch order. -/
def latePair : KernelParam × Option Str :=
  ({ name := "l", early := false, implemented := true }, none)

theorem C6_witness :
    setupOrder [latePair, earlyPair] = [earlyPair, latePair] ∧ (0 : Nat) < 1 := by
  have h := C6_early_then_late [latePair, earlyPair]
  refine ⟨h.1.trans (by decide), ?lt⟩
  exact h.2.2.2.1 ⟨0, by decide⟩ ⟨1, by decide⟩ (by decide) (by decide)

theorem foldl_setupOnce_some (f : Option Str → Option T) (values : List (Option Str)) :
    ∀ x : T, values.foldl (fun slot v => setupOnce f v slot) (some x) = some x := by
  induction values with
  | nil => intro x; rfl
  | cons v vs ih =>
    intro x
    simp only [List.foldl_cons, setupOnce]
    cases f v <;> exact ih x

/-- C7: a `Once` slot keeps the first successfully decoded occurrence
and silently ignores all later attempts; in particular `foo=1 foo=2`
with `foo=` single-valued numeric stores `1`. -/
theorem C7_once_first_wins :
    (∀ (T : Type) (f : Option Str → Option T) (values : List (Option Str)),
      values.foldl (fun slot v => setupOnce f v slot) none = (values.filterMap f).head?) ∧
    (kcmdlineFrom [fooP] ("foo=1 foo=2".data)).map
        (fun st => initDispatch (onceCallU64 fooP) none st.result.params) =
      some (some 1) := by
  constructor
  · intro T f values
    induction values with
    | nil => rfl
    | cons v vs ih =>
      rw [List.foldl_cons, List.filterMap_cons]
      cases hf : f v with
      | none =>
        rw [show setupOnce f v none = none by simp [setupOnce, hf], ih]
      | some w =>
        rw [show setupOnce f v none = some w by simp [setupOnce, hf],
          foldl_setupOnce_some]
        rfl
  · decide

theorem C7_witness :
    List.foldl (fun slot v => setupOnce from_value_u64 v slot) none
      [some ("1".data), some ("2".data)] = some 1 := by
  have h := C7_once_first_wins.1 Nat from_value_u64 [some ("1".data), some ("2".data)]
  exact h.trans (by decide)

/-- C8: a multi-valued slot appends every successfully decoded
occurrence in encounter order; in particular `console=ttyS0 console=tty0`
with `console=` multi-valued yields exactly `[ttyS0, tty0]`. -/
theorem C8_vec_appends_in_order :
    (∀ (T : Type) (f : Option Str → Option T) (values : List (Option Str)) (slot0 : List T),
      values.foldl (fun slot v => setupVec f v slot) slot0 = slot0 ++ values.filterMap f) ∧
    (kcmdlineFrom [consoleP] ("console=ttyS0 console=tty0".data)).map
        (fun st => initDispatch (vecCallString consoleP) [] st.result.params) =
      some ["ttyS0".data, "tty0".data] := by
  constructor
  · intro T f values
    induction values with
    | nil => intro slot0; simp
    | cons v vs ih =>
      intro slot0
      rw [List.foldl_cons, List.filterMap_cons]
      cases hf : f v with
      | none =>
        rw [show setupVec f v slot0 = slot0 by simp [setupVec, hf], ih]
      | some w =>
        rw [show setupVec f v slot0 = slot0 ++ [w] by simp [setupVec, hf], ih]
        simp
  · decide

theorem splitArgGo_length (cs : Str) : ∀ (inside : Bool) (cur : Str),
    (splitArgGo inside cur cs).length = sepCount inside cs + 1 := by
  induction cs with
  | nil => intro inside cur; rfl
  | cons c rest ih =>
    intro inside cur
    cases hb : (c == '"') with
    | false =>
      simp only [splitArgGo, sepCount, hb, Bool.false_eq_true, if_false]
      by_cases hs : (!inside && isRustWhitespace c) = true
      · simp [hs, ih, Nat.add_comm]
      · simp [hs, ih]
    | true =>
      simp only [splitArgGo, sepCount, hb, if_true]
      by_cases hs : inside = true ∧ isRustWhitespace c = true
      · simp [hs, ih, Nat.add_comm]
      · simp [hs, ih]


theorem C8_witness :
    List.foldl (fun slot v => setupVec from_value_string v slot) []
      [some ("ttyS0".data), some ("tty0".data)] = ["ttyS0".data, "tty0".data] := by
  have h := C8_vec_appends_in_order.1 Str from_value_string
    [some ("ttyS0".data), some ("tty0".data)] []
  exact h.trans (by decide)

/-- C9: registry matching strips the trailing `=` of a descriptor name,
so a value-less token matches a descriptor registered with a value
suffix and is consumed as kernel-matched (not forwarded, no diagnostic
for an implemented parameter); the `FromStr`-based decoder then rejects
the absent value and the `Once` slot stays unset. -/
theorem C9_match_ignores_value_arity (registry : List KernelParam) (kp : KernelParam)
    (entry : Str) (st : ParseState)
    (hend : st.kcmdline_end = false) (hsent : entry ≠ ['-', '-'])
    (hname : kp.name.data = entry ++ ['='])
    (hq : query_kernel_param registry entry = some kp)
    (himpl : kp.implemented = true)
    (hneq : '=' ∉ entry) :
    kp.nameNorm = entry ∧
    processToken registry st entry =
      some { st with result :=
               { st.result with params := st.result.params ++ [(kp, none)] } } ∧
    (∀ (T : Type) (parse : Str → Option T),
      from_value_fromStr parse none = (none : Option T)) ∧
    (∀ (T : Type) (parse : Str → Option T) (slot : Option T),
      setupOnce (from_value_fromStr parse) none slot = slot) := by
  refine ⟨?norm, ?consume, fun T parse => rfl, fun T parse slot => rfl⟩
  case norm =>
    unfold KernelParam.nameNorm
    rw [hname]
    simp
  case consume =>
    unfold processToken
    rw [if_neg (by simp [hend]), if_neg hsent, splitOnChar_of_not_mem '=' entry hneq]
    show processEntry registry st entry none = _
    unfold processEntry
    rw [hq]
    simp [himpl]

theorem C9_witness :
    fooP.nameNorm = "foo".data ∧
    processToken [fooP] initParseState ("foo".data) =
      some { kcmdline_end := false,
             result := { argv := [], envp := [], params := [(fooP, none)] },
             warnings := [] } ∧
    setupOnce from_value_u64 none (none : Option Nat) = none := by
  have h := C9_match_ignores_value_arity [fooP] fooP ("foo".data) initParseState rfl
    (by decide) (by decide) (by decide) rfl (by decide)
  exact ⟨h.1, (h.2.1).trans (by decide), h.2.2.2 Nat parseU64 none⟩

theorem splitArgGo_ws_boundary (cur rest : Str) (w : Char)
    (hw : isRustWhitespace w = true) :
    splitArgGo false cur (w :: rest) = cur :: splitArgGo false [] rest := by
  have hnq : w ≠ '"' := by
    intro hEq
    subst hEq
    exact absurd hw (by decide)
  have hb : (w == '"') = false := by simp [hnq]
  simp [splitArgGo, hb, hw]

/-- C10: `split_arg` performs no whitespace collapse (one more token
than the number of separator characters), emits an empty token at each
leading, trailing or consecutive unquoted-whitespace position, and an
empty token is appended to the init-process argv as an empty string both
before the sentinel (when the registry has no empty-named descriptor)
and after it. -/
theorem C10_empty_tokens_to_argv :
    (∀ input : Str, (split_arg input).length = sepCount false input + 1) ∧
    (∀ (rest : Str) (w : Char), isRustWhitespace w = true →
      split_arg (w :: rest) = [] :: split_arg rest) ∧
    (∀ (rest : Str) (w1 w2 : Char), isRustWhitespace w1 = true → isRustWhitespace w2 = true →
      split_arg (w1 :: w2 :: rest) = [] :: [] :: split_arg rest) ∧
    (∀ (cur : Str) (w : Char), isRustWhitespace w = true →
      splitArgGo false cur [w] = [cur, []]) ∧
    (∀ (registry : List KernelParam) (st : ParseState), st.kcmdline_end = false →
      query_kernel_param registry [] = none →
      processToken registry st [] =
        some { st with result := { st.result with argv := st.result.argv ++ [[]] } }) ∧
    (∀ (registry : List KernelParam) (st : ParseState), st.kcmdline_end = true →
      processToken registry st [] =
        some { st with result := { st.result with argv := st.result.argv ++ [[]] } }) ∧
    (kcmdlineFrom [] (" -- ".data)).map (fun st => st.result.argv) = some [[], []] := by
  refine ⟨?len, ?lead, ?consec, ?trail, ?pre, ?post, by decide⟩
  case len =>
    intro input
    exact splitArgGo_length input false []
  case lead =>
    intro rest w hw
    exact splitArgGo_ws_boundary [] rest w hw
  case consec =>
    intro rest w1 w2 h1 h2
    rw [show split_arg (w1 :: w2 :: rest) = splitArgGo false [] (w1 :: w2 :: rest) from rfl,
      splitArgGo_ws_boundary [] (w2 :: rest) w1 h1, splitArgGo_ws_boundary [] rest w2 h2]
    rfl
  case trail =>
    intro cur w hw
    rw [splitArgGo_ws_boundary cur [] w hw]
    rfl
  case pre =>
    intro registry st hend hq
    unfold processToken
    rw [if_neg (by simp [hend]), if_neg (by decide)]
    show processEntry registry st [] none = _
    unfold processEntry
    rw [hq]
    simp [cstringNew]
  case post =>
    intro registry st hend
    unfold processToken
    rw [if_pos hend]
    simp [cstringNew]

theorem C10_witness :
    split_arg (' ' :: "a".data) = [[], "a".data] ∧
    processToken [] initParseState [] =
      some { kcmdline_end := false, result := { argv := [[]], envp := [], params := [] },
             warnings := [] } ∧
    processToken [] { kcmdline_end := true, result := { argv := [], envp := [], params := [] },
                      warnings := [] } [] =
      some { kcmdline_end := true, result := { argv := [[]], envp := [], params := [] },
             warnings := [] } := by
  have h := C10_empty_tokens_to_argv
  refine ⟨(h.2.1 ("a".data) ' ' (by decide)).trans (by decide),
    (h.2.2.2.2.1 [] initParseState rfl (by decide)).trans (by decide),
    (h.2.2.2.2.2.1 [] _ rfl).trans (by decide)⟩

end Cmdline
